import Mathlib

/-!
# Verification of the MinesweeperAI knowledge-base engine

A shallow embedding of `src/ai.py` (classes `Statement` and `AI`) together with
proofs about the engine's invariants, functional behaviour and frame effects.

Modelling conventions:
* A Python cell tuple `(i, j)` is a `Cell := ℤ × ℤ` (board loop indices are
  coerced from `ℕ`).
* A Python `set` of cells is a `Finset Cell`; Python set iteration order is
  unspecified, and every per-element loop embedded here is order-independent
  (`AI.mark_safe`/`AI.mark_mine` applied to distinct cells commute), so a loop
  `for c in S: f(c)` over a set is embedded by its order-independent effect
  (`markSafeAll` / `markMineAll`); bridging lemmas below
  (`AI.mark_safe_eq_markSafeAll`, `AI.mark_mine_eq_markMineAll`,
  `AI.foldl_mark_safe`, `AI.foldl_mark_mine`) prove that iterating the
  source's single-cell operations in any enumeration order gives exactly the
  aggregate effect.
* The Python list `self.knowledge` is a `List Statement`; loops over
  `deepcopy(self.knowledge)` snapshots are `List.foldl` over the list value
  taken before the loop, exactly as `deepcopy` freezes the iterated snapshot.
* `count` is an `ℤ` since the source decrements it without a lower bound.
-/

/-- A board coordinate, Python tuple `(row, column)`. -/
abbrev Cell := ℤ × ℤ

/-- `Statement(cells, count)` from `src/ai.py`: "exactly `count` of `cells`
are mines".  Python `__eq__` compares `cells` and `count`, which is exactly
structural equality here. -/
structure Statement where
  cells : Finset Cell
  count : ℤ
deriving DecidableEq

namespace Statement

/-- `Statement.known_mines`: all cells are mines when `count == len(cells)`. -/
def known_mines (s : Statement) : Finset Cell :=
  if s.count = (s.cells.card : ℤ) then s.cells else ∅

/-- `Statement.known_safes`: all cells are safe when `count == 0`. -/
def known_safes (s : Statement) : Finset Cell :=
  if s.count = 0 then s.cells else ∅

/-- `Statement.mark_mine`: if the cell is present, remove it and decrement
`count`. -/
def mark_mine (s : Statement) (cell : Cell) : Statement :=
  if cell ∈ s.cells then ⟨s.cells.erase cell, s.count - 1⟩ else s

/-- `Statement.mark_safe`: if the cell is present, remove it; `count` is
unchanged. -/
def mark_safe (s : Statement) (cell : Cell) : Statement :=
  if cell ∈ s.cells then ⟨s.cells.erase cell, s.count⟩ else s

/-- Effect on one statement of marking every cell of `cs` safe (in any
order): each one is erased, the count is untouched. -/
def markSafeAll (s : Statement) (cs : Finset Cell) : Statement :=
  ⟨s.cells \ cs, s.count⟩

/-- Effect on one statement of marking every cell of `cs` as a mine (in any
order): each present cell is erased and decrements the count once. -/
def markMineAll (s : Statement) (cs : Finset Cell) : Statement :=
  ⟨s.cells \ cs, s.count - ((s.cells ∩ cs).card : ℤ)⟩

end Statement

/-- The `AI` class of `src/ai.py`: board dimensions, the `knowledge` list of
statements, and the `moves` / `mines` / `safes` sets. -/
structure AI where
  height : ℕ
  width : ℕ
  knowledge : List Statement
  moves : Finset Cell
  mines : Finset Cell
  safes : Finset Cell
deriving DecidableEq

namespace AI

/-- `AI.__init__(height, width)`. -/
def init (height width : ℕ) : AI :=
  ⟨height, width, [], ∅, ∅, ∅⟩

/-- `AI.mark_mine`: add the cell to `mines` and propagate to every
statement. -/
def mark_mine (s : AI) (cell : Cell) : AI :=
  { s with mines := insert cell s.mines,
           knowledge := s.knowledge.map (Statement.mark_mine · cell) }

/-- `AI.mark_safe`: add the cell to `safes` and propagate to every
statement. -/
def mark_safe (s : AI) (cell : Cell) : AI :=
  { s with safes := insert cell s.safes,
           knowledge := s.knowledge.map (Statement.mark_safe · cell) }

/-- Aggregate effect of `for c in cs: self.mark_safe(c)` over a Python set
`cs` (order-independent, see module docstring). -/
def markSafeAll (s : AI) (cs : Finset Cell) : AI :=
  { s with safes := s.safes ∪ cs,
           knowledge := s.knowledge.map (Statement.markSafeAll · cs) }

/-- Aggregate effect of `for c in cs: self.mark_mine(c)` over a Python set
`cs` (order-independent, see module docstring). -/
def markMineAll (s : AI) (cs : Finset Cell) : AI :=
  { s with mines := s.mines ∪ cs,
           knowledge := s.knowledge.map (Statement.markMineAll · cs) }

/-- One iteration of the step-4 propagation loop of `AI.add_knowledge`
(lines 147-151): mark every `known_safes` cell of the snapshot sentence safe,
then every `known_mines` cell a mine. -/
def propagateStep (s : AI) (st : Statement) : AI :=
  (s.markSafeAll st.known_safes).markMineAll st.known_mines

/-- Step 4 of `AI.add_knowledge`: iterate `propagateStep` over a snapshot
(`deepcopy`) of the current knowledge list. -/
def propagate (s : AI) : AI :=
  s.knowledge.foldl propagateStep s

/-- Inner loop of step 5 of `AI.add_knowledge` (lines 156-164): compare one
snapshot `base` statement against every snapshot statement, appending each
new inferred statement to the live knowledge list `k`. -/
def inferInner (kc : List Statement) (base : Statement) (k : List Statement) :
    List Statement :=
  kc.foldl (fun k comp =>
    if base.cells ⊆ comp.cells then
      let inferred : Statement :=
        ⟨comp.cells \ base.cells, comp.count - base.count⟩
      if inferred ∈ k then k else k ++ [inferred]
    else k) k

/-- Step 5 of `AI.add_knowledge`: over a snapshot of the knowledge list,
for every ordered pair of statements with subset cell sets, append the
difference statement unless it is already present. -/
def infer (s : AI) : AI :=
  { s with knowledge := s.knowledge.foldl (fun k base => inferInner s.knowledge base k) s.knowledge }

/-- The value of the caller's `neighbours` set after the filtering loop of
`AI.add_knowledge` (lines 128-133): `neighbours.remove(n)` mutates the
caller's set in place, dropping every neighbour already in `safes` (after the
observed cell itself was marked safe) or in `mines`. -/
def filteredNeighbours (s : AI) (cell : Cell) (neighbours : Finset Cell) :
    Finset Cell :=
  neighbours.filter (fun n => ¬(n ∈ insert cell s.safes ∨ n ∈ s.mines))

/-- Steps 1-3 of `AI.add_knowledge`: record the move, mark the observed cell
safe, adjust the count by the neighbours already known to be mines, filter
resolved neighbours, append the new statement, and drop empty statements. -/
def ingest (s : AI) (cell : Cell) (count : ℤ) (neighbours : Finset Cell) : AI :=
  let s1 := { s with moves := insert cell s.moves }
  let s2 := s1.mark_safe cell
  let count2 := count - ((neighbours.filter (· ∈ s2.mines)).card : ℤ)
  let nbrs := neighbours.filter (fun n => ¬(n ∈ s2.safes ∨ n ∈ s2.mines))
  let s3 := { s2 with knowledge := s2.knowledge ++ [(⟨nbrs, count2⟩ : Statement)] }
  { s3 with knowledge := s3.knowledge.filter (fun st => decide (st.cells ≠ ∅)) }

/-- `AI.add_knowledge(cell, count, neighbours)`: ingest the observation, run
the propagation pass, then the subset-inference pass. -/
def add_knowledge (s : AI) (cell : Cell) (count : ℤ) (neighbours : Finset Cell) :
    AI :=
  ((s.ingest cell count neighbours).propagate).infer

/-- `AI.make_safe_move`: pop an arbitrary element (modelled by the choice
function `pick`) of `safes - moves`, or `None`.  The source mutates only the
local set `cells`, never a field of `self`, so the returned state is the
input state. -/
def make_safe_move (s : AI) (pick : Finset Cell → Option Cell) :
    Option Cell × AI :=
  let cells := s.safes \ s.moves
  (if 0 < cells.card then pick cells else none, s)

/-- The `pickable_cells` list built by `AI.make_random_move` (lines 186-190):
row-major enumeration of the board cells not in `moves` and not in `mines`. -/
def pickable_cells (s : AI) : List Cell :=
  (List.range s.height).flatMap (fun (i : ℕ) =>
    (List.range s.width).filterMap (fun (j : ℕ) =>
      let cell : Cell := ((i : ℤ), (j : ℤ))
      if cell ∉ s.moves ∧ cell ∉ s.mines then some cell else none))

/-- `AI.make_random_move`: shuffle `pickable_cells` and return its head, or
`None` when it is empty.  The shuffled list is passed in as `shuffled`
(claims assume `shuffled ~ pickable_cells`); only the local list is mutated,
so the returned state is the input state. -/
def make_random_move (s : AI) (shuffled : List Cell) : Option Cell × AI :=
  (shuffled.head?, s)

/-- `AI.reset`: clear the knowledge list and the three sets, keeping the
dimensions. -/
def reset (s : AI) : AI :=
  { s with knowledge := [], moves := ∅, mines := ∅, safes := ∅ }

end AI

/-- `Statement.Exact M st`: the statement is exactly right about the mine
assignment `M`, i.e. its count is the number of its cells that are mines. -/
def Statement.Exact (M : Finset Cell) (st : Statement) : Prop :=
  st.count = (((st.cells ∩ M).card : ℕ) : ℤ)

/-- `AI.Inv M s`: the knowledge base is consistent with the mine assignment
`M`: every deduced mine is in `M`, no deduced safe cell is in `M`, and every
stored statement is exact about `M`. -/
def AI.Inv (M : Finset Cell) (s : AI) : Prop :=
  s.mines ⊆ M ∧ Disjoint s.safes M ∧ ∀ st ∈ s.knowledge, st.Exact M

/-- The knowledge-base states an external caller can observe when the calls
are consistent with the single mine assignment `M`: a mine is only marked
when it is in `M`, a safe cell only when it is not, and each observation
reports a non-mine cell with the true number of mines among the supplied
neighbours. -/
inductive AI.Reachable (M : Finset Cell) : AI → Prop where
  | init (height width : ℕ) : AI.Reachable M (AI.init height width)
  | mark_mine {s : AI} (cell : Cell) (hc : cell ∈ M) (h : AI.Reachable M s) :
      AI.Reachable M (s.mark_mine cell)
  | mark_safe {s : AI} (cell : Cell) (hc : cell ∉ M) (h : AI.Reachable M s) :
      AI.Reachable M (s.mark_safe cell)
  | observe {s : AI} (cell : Cell) (count : ℤ) (neighbours : Finset Cell)
      (hc : cell ∉ M) (hcount : count = (((neighbours ∩ M).card : ℕ) : ℤ))
      (h : AI.Reachable M s) :
      AI.Reachable M (s.add_knowledge cell count neighbours)
  | reset {s : AI} (h : AI.Reachable M s) : AI.Reachable M s.reset

/-- The eight neighbours of the cell `(1, 1)`, as in the spec's zero-clue
propagation test. -/
def eightNeighbours : Finset Cell :=
  {((0:ℤ),(0:ℤ)), ((0:ℤ),(1:ℤ)), ((0:ℤ),(2:ℤ)), ((1:ℤ),(0:ℤ)),
   ((1:ℤ),(2:ℤ)), ((2:ℤ),(0:ℤ)), ((2:ℤ),(1:ℤ)), ((2:ℤ),(2:ℤ))}

/-- The knowledge base of the spec's subset-inference test: exactly the two
constraints `{(0,0),(0,1),(0,2)} = 1` and `{(0,0),(0,1)} = 1`. -/
def subsetTestKB : AI :=
  ⟨3, 3,
   [⟨{((0:ℤ),(0:ℤ)), ((0:ℤ),(1:ℤ)), ((0:ℤ),(2:ℤ))}, 1⟩,
    ⟨{((0:ℤ),(0:ℤ)), ((0:ℤ),(1:ℤ))}, 1⟩],
   ∅, ∅, ∅⟩

namespace Statement

theorem mark_safe_eq_markSafeAll_singleton (st : Statement) (c : Cell) :
    st.mark_safe c = st.markSafeAll {c} := by
  obtain ⟨cells, count⟩ := st
  unfold mark_safe markSafeAll
  by_cases h : c ∈ cells
  · simp [h, Finset.sdiff_singleton_eq_erase]
  · simp [h, Finset.sdiff_singleton_eq_erase, Finset.erase_eq_of_not_mem h]

theorem mark_mine_eq_markMineAll_singleton (st : Statement) (c : Cell) :
    st.mark_mine c = st.markMineAll {c} := by
  obtain ⟨cells, count⟩ := st
  unfold mark_mine markMineAll
  by_cases h : c ∈ cells
  · simp [h, Finset.sdiff_singleton_eq_erase, Finset.inter_comm,
      Finset.singleton_inter_of_mem h]
  · simp [h, Finset.sdiff_singleton_eq_erase, Finset.erase_eq_of_not_mem h,
      Finset.inter_comm, Finset.singleton_inter_of_not_mem h]

/-- The two cell sets `cells ∩ a` and `(cells \ a) ∩ b` partition
`cells ∩ (a ∪ b)`. -/
theorem card_inter_union_split (cells a b : Finset Cell) :
    (cells ∩ (a ∪ b)).card = (cells ∩ a).card + ((cells \ a) ∩ b).card := by
  have hu : cells ∩ (a ∪ b) = (cells ∩ a) ∪ ((cells \ a) ∩ b) := by
    ext x
    simp only [Finset.mem_inter, Finset.mem_union, Finset.mem_sdiff]
    tauto
  have hd : Disjoint (cells ∩ a) ((cells \ a) ∩ b) := by
    rw [Finset.disjoint_left]
    intro x hx hx'
    simp only [Finset.mem_inter, Finset.mem_sdiff] at hx hx'
    exact hx'.1.2 hx.2
  rw [hu, Finset.card_union_of_disjoint hd]

theorem markSafeAll_union (st : Statement) (a b : Finset Cell) :
    (st.markSafeAll a).markSafeAll b = st.markSafeAll (a ∪ b) := by
  unfold markSafeAll
  simp [Finset.sdiff_union_distrib]
  ext x
  simp only [Finset.mem_sdiff, Finset.mem_inter, Finset.mem_union]
  tauto

theorem markMineAll_union (st : Statement) (a b : Finset Cell) :
    (st.markMineAll a).markMineAll b = st.markMineAll (a ∪ b) := by
  unfold markMineAll
  have hc : (st.cells \ a) \ b = st.cells \ (a ∪ b) := by
    ext x
    simp only [Finset.mem_sdiff, Finset.mem_union]
    tauto
  have hn := card_inter_union_split st.cells a b
  simp only [hc, Statement.mk.injEq, true_and]
  push_cast [hn]
  ring

end Statement

namespace AI

theorem mark_safe_eq_markSafeAll (s : AI) (c : Cell) :
    s.mark_safe c = s.markSafeAll {c} := by
  unfold mark_safe markSafeAll
  simp [Statement.mark_safe_eq_markSafeAll_singleton, Finset.union_comm, Finset.insert_eq]

theorem mark_mine_eq_markMineAll (s : AI) (c : Cell) :
    s.mark_mine c = s.markMineAll {c} := by
  unfold mark_mine markMineAll
  simp [Statement.mark_mine_eq_markMineAll_singleton, Finset.union_comm, Finset.insert_eq]

theorem markSafeAll_markSafeAll (s : AI) (a b : Finset Cell) :
    (s.markSafeAll a).markSafeAll b = s.markSafeAll (a ∪ b) := by
  unfold markSafeAll
  simp [Statement.markSafeAll_union, Finset.union_assoc]

theorem markMineAll_markMineAll (s : AI) (a b : Finset Cell) :
    (s.markMineAll a).markMineAll b = s.markMineAll (a ∪ b) := by
  unfold markMineAll
  simp [Statement.markMineAll_union, Finset.union_assoc]

/-- Faithfulness of `markSafeAll`: iterating the source's single-cell
`AI.mark_safe` over the elements of a Python set, in any enumeration order,
is the aggregate `markSafeAll` of that set. -/
theorem foldl_mark_safe (s : AI) (l : List Cell) :
    l.foldl AI.mark_safe s = s.markSafeAll l.toFinset := by
  induction l generalizing s with
  | nil =>
    simp only [List.foldl_nil, List.toFinset_nil]
    unfold markSafeAll
    cases s
    simp [Statement.markSafeAll]
  | cons c rest ih =>
    simp only [List.foldl_cons, List.toFinset_cons, ih,
      mark_safe_eq_markSafeAll, markSafeAll_markSafeAll]
    rw [Finset.insert_eq]

/-- Faithfulness of `markMineAll`: iterating the source's single-cell
`AI.mark_mine` over the elements of a Python set, in any enumeration order,
is the aggregate `markMineAll` of that set. -/
theorem foldl_mark_mine (s : AI) (l : List Cell) :
    l.foldl AI.mark_mine s = s.markMineAll l.toFinset := by
  induction l generalizing s with
  | nil =>
    simp only [List.foldl_nil, List.toFinset_nil]
    unfold markMineAll
    cases s
    simp [Statement.markMineAll]
  | cons c rest ih =>
    simp only [List.foldl_cons, List.toFinset_cons, ih,
      mark_mine_eq_markMineAll, markMineAll_markMineAll]
    rw [Finset.insert_eq]

end AI

namespace Statement

/-- An exact statement satisfies the spec's constraint invariant
`0 ≤ count ≤ |cells|`. -/
theorem Exact.bounds {M : Finset Cell} {st : Statement} (h : st.Exact M) :
    0 ≤ st.count ∧ st.count ≤ (st.cells.card : ℤ) := by
  unfold Exact at h
  have hle : (st.cells ∩ M).card ≤ st.cells.card :=
    Finset.card_le_card (Finset.inter_subset_left)
  constructor
  · rw [h]; positivity
  · rw [h]; exact_mod_cast hle

theorem Exact.markSafeAll_preserved {M : Finset Cell} {st : Statement} (h : st.Exact M)
    {cs : Finset Cell} (hd : Disjoint cs M) :
    (st.markSafeAll cs).Exact M := by
  unfold Exact Statement.markSafeAll at *
  have : (st.cells \ cs) ∩ M = st.cells ∩ M := by
    ext x
    simp only [Finset.mem_inter, Finset.mem_sdiff]
    constructor
    · rintro ⟨⟨hx, _⟩, hM⟩; exact ⟨hx, hM⟩
    · rintro ⟨hx, hM⟩
      exact ⟨⟨hx, fun hcs => Finset.disjoint_left.mp hd hcs hM⟩, hM⟩
  simpa [this] using h

theorem Exact.markMineAll_preserved {M : Finset Cell} {st : Statement} (h : st.Exact M)
    {cs : Finset Cell} (hcs : cs ⊆ M) :
    (st.markMineAll cs).Exact M := by
  unfold Exact Statement.markMineAll at *
  have hset : (st.cells \ cs) ∩ M = (st.cells ∩ M) \ (st.cells ∩ cs) := by
    ext x
    simp only [Finset.mem_inter, Finset.mem_sdiff]
    constructor
    · rintro ⟨⟨hx, hncs⟩, hM⟩; exact ⟨⟨hx, hM⟩, fun hc => hncs hc.2⟩
    · rintro ⟨⟨hx, hM⟩, hn⟩; exact ⟨⟨hx, fun hc => hn ⟨hx, hc⟩⟩, hM⟩
  have hsub : st.cells ∩ cs ⊆ st.cells ∩ M :=
    Finset.inter_subset_inter (le_refl st.cells) hcs
  have hcard : ((st.cells \ cs) ∩ M).card = (st.cells ∩ M).card - (st.cells ∩ cs).card := by
    rw [hset, Finset.card_sdiff hsub]
  have hle : (st.cells ∩ cs).card ≤ (st.cells ∩ M).card := Finset.card_le_card hsub
  simp only [hcard, h]
  omega

/-- The `known_safes` of an exact statement really are safe: none of them is
in the mine assignment. -/
theorem Exact.known_safes_disjoint {M : Finset Cell} {st : Statement}
    (h : st.Exact M) : Disjoint st.known_safes M := by
  unfold known_safes
  split
  · rename_i h0
    unfold Exact at h
    rw [h0] at h
    have : (st.cells ∩ M).card = 0 := by exact_mod_cast h.symm
    have hempty : st.cells ∩ M = ∅ := Finset.card_eq_zero.mp this
    rw [Finset.disjoint_left]
    intro x hx hM
    have : x ∈ st.cells ∩ M := Finset.mem_inter.mpr ⟨hx, hM⟩
    simp [hempty] at this
  · exact Finset.disjoint_empty_left M

/-- The `known_mines` of an exact statement really are mines: all of them
are in the mine assignment. -/
theorem Exact.known_mines_subset {M : Finset Cell} {st : Statement}
    (h : st.Exact M) : st.known_mines ⊆ M := by
  unfold known_mines
  split
  · rename_i hfull
    unfold Exact at h
    rw [hfull] at h
    have hcards : st.cells.card = (st.cells ∩ M).card := by exact_mod_cast h
    have : st.cells ∩ M = st.cells :=
      Finset.eq_of_subset_of_card_le (Finset.inter_subset_left) (le_of_eq hcards)
    intro x hx
    have : x ∈ st.cells ∩ M := this.symm ▸ hx
    exact (Finset.mem_inter.mp this).2
  · exact Finset.empty_subset M

/-- The statement inferred from two exact statements whose cell sets are in
the subset relation is itself exact. -/
theorem Exact.inferred {M : Finset Cell} {A B : Statement}
    (hA : A.Exact M) (hB : B.Exact M) (hsub : A.cells ⊆ B.cells) :
    Statement.Exact M ⟨B.cells \ A.cells, B.count - A.count⟩ := by
  unfold Exact at *
  have hset : (B.cells \ A.cells) ∩ M = (B.cells ∩ M) \ (A.cells ∩ M) := by
    ext x
    simp only [Finset.mem_inter, Finset.mem_sdiff]
    constructor
    · rintro ⟨⟨hx, hnA⟩, hM⟩; exact ⟨⟨hx, hM⟩, fun hc => hnA hc.1⟩
    · rintro ⟨⟨hx, hM⟩, hn⟩; exact ⟨⟨hx, fun hc => hn ⟨hc, hM⟩⟩, hM⟩
  have hsub' : A.cells ∩ M ⊆ B.cells ∩ M :=
    Finset.inter_subset_inter hsub (le_refl M)
  have hle : (A.cells ∩ M).card ≤ (B.cells ∩ M).card := Finset.card_le_card hsub'
  have hcard : ((B.cells \ A.cells) ∩ M).card = (B.cells ∩ M).card - (A.cells ∩ M).card := by
    rw [hset, Finset.card_sdiff hsub']
  simp only [hcard, hA, hB]
  omega

end Statement

namespace AI

theorem Inv.markSafeAll {M : Finset Cell} {s : AI} (h : s.Inv M)
    {cs : Finset Cell} (hd : Disjoint cs M) : (s.markSafeAll cs).Inv M := by
  obtain ⟨hm, hs, hk⟩ := h
  refine ⟨hm, ?_, ?_⟩
  · exact Finset.disjoint_union_left.mpr ⟨hs, hd⟩
  · intro st hst
    simp only [AI.markSafeAll, List.mem_map] at hst
    obtain ⟨st0, hst0, rfl⟩ := hst
    exact (hk st0 hst0).markSafeAll_preserved hd

theorem Inv.markMineAll {M : Finset Cell} {s : AI} (h : s.Inv M)
    {cs : Finset Cell} (hcs : cs ⊆ M) : (s.markMineAll cs).Inv M := by
  obtain ⟨hm, hs, hk⟩ := h
  refine ⟨Finset.union_subset hm hcs, hs, ?_⟩
  intro st hst
  simp only [AI.markMineAll, List.mem_map] at hst
  obtain ⟨st0, hst0, rfl⟩ := hst
  exact (hk st0 hst0).markMineAll_preserved hcs

theorem Inv.mark_safe {M : Finset Cell} {s : AI} (h : s.Inv M)
    {cell : Cell} (hc : cell ∉ M) : (s.mark_safe cell).Inv M := by
  rw [mark_safe_eq_markSafeAll]
  exact h.markSafeAll (Finset.disjoint_singleton_left.mpr hc)

theorem Inv.mark_mine {M : Finset Cell} {s : AI} (h : s.Inv M)
    {cell : Cell} (hc : cell ∈ M) : (s.mark_mine cell).Inv M := by
  rw [mark_mine_eq_markMineAll]
  exact h.markMineAll (Finset.singleton_subset_iff.mpr hc)

theorem Inv.propagateStep {M : Finset Cell} {s : AI} (h : s.Inv M)
    {st : Statement} (hst : st.Exact M) : (s.propagateStep st).Inv M :=
  (h.markSafeAll hst.known_safes_disjoint).markMineAll hst.known_mines_subset

theorem inv_foldl_propagateStep {M : Finset Cell} {l : List Statement}
    (hl : ∀ st ∈ l, st.Exact M) {t : AI} (ht : t.Inv M) :
    (l.foldl AI.propagateStep t).Inv M := by
  induction l generalizing t with
  | nil => exact ht
  | cons st rest ih =>
    simp only [List.foldl_cons]
    exact ih (fun st' h' => hl st' (List.mem_cons_of_mem st h'))
      (ht.propagateStep (hl st (List.mem_cons_self st rest)))

theorem Inv.propagate {M : Finset Cell} {s : AI} (h : s.Inv M) :
    s.propagate.Inv M :=
  inv_foldl_propagateStep h.2.2 h

theorem exact_inferInner {M : Finset Cell} {kc : List Statement}
    (hkc : ∀ st ∈ kc, st.Exact M) {base : Statement} (hbase : base.Exact M)
    {k : List Statement} (hk : ∀ st ∈ k, st.Exact M) :
    ∀ st ∈ inferInner kc base k, st.Exact M := by
  unfold inferInner
  induction kc generalizing k with
  | nil => exact hk
  | cons comp rest ih =>
    simp only [List.foldl_cons]
    refine ih (fun st h' => hkc st (List.mem_cons_of_mem comp h')) ?_
    by_cases hsub : base.cells ⊆ comp.cells
    · simp only [hsub, if_true]
      by_cases hmem : (⟨comp.cells \ base.cells, comp.count - base.count⟩ : Statement) ∈ k
      · simpa [hmem] using hk
      · simp only [hmem, if_false]
        intro st hst
        rcases List.mem_append.mp hst with h' | h'
        · exact hk st h'
        · rcases List.mem_singleton.mp h' with rfl
          exact Statement.Exact.inferred hbase
            (hkc comp (List.mem_cons_self comp rest)) hsub
    · simpa [hsub] using hk

theorem Inv.infer {M : Finset Cell} {s : AI} (h : s.Inv M) : s.infer.Inv M := by
  obtain ⟨hm, hs, hk⟩ := h
  refine ⟨hm, hs, ?_⟩
  show ∀ st ∈ s.knowledge.foldl (fun k base => inferInner s.knowledge base k) s.knowledge,
    st.Exact M
  have main : ∀ (l : List Statement), (∀ st ∈ l, st.Exact M) →
      ∀ (k : List Statement), (∀ st ∈ k, st.Exact M) →
      ∀ st ∈ l.foldl (fun k base => inferInner s.knowledge base k) k, st.Exact M := by
    intro l hl
    induction l with
    | nil => intro k hk' st hst; exact hk' st hst
    | cons base rest ih =>
      intro k hk' st hst
      simp only [List.foldl_cons] at hst
      refine ih (fun st' h' => hl st' (List.mem_cons_of_mem base h')) _ ?_ st hst
      exact exact_inferInner hk (hl base (List.mem_cons_self base rest)) hk'
  exact main s.knowledge hk s.knowledge hk

end AI

namespace AI

/-- Unfolding of `ingest`: the moves and safe sets gain the observed cell,
every stored statement has the cell marked safe, and the filtered new
statement is appended before empty statements are dropped. -/
theorem ingest_eq (s : AI) (cell : Cell) (count : ℤ) (neighbours : Finset Cell) :
    s.ingest cell count neighbours =
      { s with
        moves := insert cell s.moves,
        safes := insert cell s.safes,
        knowledge :=
          ((s.knowledge.map (Statement.mark_safe · cell)) ++
            [(⟨neighbours.filter (fun n => ¬(n ∈ insert cell s.safes ∨ n ∈ s.mines)),
               count - ((neighbours.filter (· ∈ s.mines)).card : ℤ)⟩ : Statement)]).filter
            (fun st => decide (st.cells ≠ ∅)) } := rfl

/-- The statement built from a true observation after discounting the
already-known mines and filtering the resolved neighbours is exact. -/
theorem new_statement_exact {M safes2 mines neighbours : Finset Cell}
    (hm : mines ⊆ M) (hs : Disjoint safes2 M) :
    Statement.Exact M
      ⟨neighbours.filter (fun n => ¬(n ∈ safes2 ∨ n ∈ mines)),
       ((neighbours ∩ M).card : ℤ) - ((neighbours.filter (· ∈ mines)).card : ℤ)⟩ := by
  unfold Statement.Exact
  simp only
  have hf : neighbours.filter (· ∈ mines) = neighbours ∩ mines :=
    Finset.filter_mem_eq_inter
  have hset :
      (neighbours.filter (fun n => ¬(n ∈ safes2 ∨ n ∈ mines))) ∩ M =
        (neighbours ∩ M) \ (neighbours ∩ mines) := by
    ext x
    simp only [Finset.mem_inter, Finset.mem_sdiff, Finset.mem_filter, not_or]
    constructor
    · rintro ⟨⟨hxN, _, hxm⟩, hxM⟩
      exact ⟨⟨hxN, hxM⟩, fun hc => hxm hc.2⟩
    · rintro ⟨⟨hxN, hxM⟩, hn⟩
      exact ⟨⟨hxN, fun hsafe => Finset.disjoint_left.mp hs hsafe hxM,
        fun hmine => hn ⟨hxN, hmine⟩⟩, hxM⟩
  have hsub : neighbours ∩ mines ⊆ neighbours ∩ M :=
    Finset.inter_subset_inter (le_refl neighbours) hm
  have hcard :
      ((neighbours.filter (fun n => ¬(n ∈ safes2 ∨ n ∈ mines))) ∩ M).card =
        (neighbours ∩ M).card - (neighbours ∩ mines).card := by
    rw [hset, Finset.card_sdiff hsub]
  have hle : (neighbours ∩ mines).card ≤ (neighbours ∩ M).card :=
    Finset.card_le_card hsub
  rw [hf, hcard]
  omega

theorem Inv.ingest {M : Finset Cell} {s : AI} (h : s.Inv M) {cell : Cell}
    (hc : cell ∉ M) {count : ℤ} {neighbours : Finset Cell}
    (hcount : count = ((neighbours ∩ M).card : ℤ)) :
    (s.ingest cell count neighbours).Inv M := by
  obtain ⟨hm, hs, hk⟩ := h
  have hs2 : Disjoint (insert cell s.safes) M := by
    rw [Finset.disjoint_left]
    intro x hx hxM
    rcases Finset.mem_insert.mp hx with rfl | hx'
    · exact hc hxM
    · exact Finset.disjoint_left.mp hs hx' hxM
  rw [ingest_eq]
  refine ⟨hm, hs2, ?_⟩
  intro st hst
  simp only [List.mem_filter, List.mem_append, List.mem_map,
    List.mem_singleton] at hst
  rcases hst.1 with ⟨st0, hst0, rfl⟩ | rfl
  · rw [Statement.mark_safe_eq_markSafeAll_singleton]
    exact (hk st0 hst0).markSafeAll_preserved (Finset.disjoint_singleton_left.mpr hc)
  · rw [hcount]
    exact new_statement_exact hm hs2

theorem Inv.add_knowledge {M : Finset Cell} {s : AI} (h : s.Inv M)
    {cell : Cell} (hc : cell ∉ M) {count : ℤ} {neighbours : Finset Cell}
    (hcount : count = ((neighbours ∩ M).card : ℤ)) :
    (s.add_knowledge cell count neighbours).Inv M :=
  ((h.ingest hc hcount).propagate).infer

theorem inv_init (M : Finset Cell) (height width : ℕ) :
    (AI.init height width).Inv M := by
  refine ⟨Finset.empty_subset M, Finset.disjoint_empty_left M, ?_⟩
  intro st hst
  simp [AI.init] at hst

theorem Inv.reset {M : Finset Cell} {s : AI} (_ : s.Inv M) : s.reset.Inv M := by
  refine ⟨Finset.empty_subset M, Finset.disjoint_empty_left M, ?_⟩
  intro st hst
  simp [AI.reset] at hst

/-- Every observable state of a consistently driven knowledge base satisfies
the mine-assignment invariant. -/
theorem Reachable.inv {M : Finset Cell} {s : AI} (h : s.Reachable M) :
    s.Inv M := by
  induction h with
  | init height width => exact inv_init M height width
  | mark_mine cell hc _ ih => exact ih.mark_mine hc
  | mark_safe cell hc _ ih => exact ih.mark_safe hc
  | observe cell count neighbours hc hcount _ ih => exact ih.add_knowledge hc hcount
  | reset _ ih => exact ih.reset

end AI

namespace AI

theorem markMineAll_safes (s : AI) (cs : Finset Cell) :
    (s.markMineAll cs).safes = s.safes := rfl

theorem safes_subset_propagateStep (s : AI) (st : Statement) :
    s.safes ⊆ (s.propagateStep st).safes := by
  unfold propagateStep
  rw [markMineAll_safes]
  exact Finset.subset_union_left

theorem known_safes_subset_propagateStep (s : AI) (st : Statement) :
    st.known_safes ⊆ (s.propagateStep st).safes := by
  unfold propagateStep
  rw [markMineAll_safes]
  exact Finset.subset_union_right

theorem safes_subset_foldl_propagateStep (l : List Statement) (t : AI) :
    t.safes ⊆ (l.foldl AI.propagateStep t).safes := by
  induction l generalizing t with
  | nil => exact Finset.Subset.refl _
  | cons st rest ih =>
    simp only [List.foldl_cons]
    exact (safes_subset_propagateStep t st).trans (ih _)

theorem known_safes_subset_foldl_propagateStep {l : List Statement}
    {st : Statement} (h : st ∈ l) (t : AI) :
    st.known_safes ⊆ (l.foldl AI.propagateStep t).safes := by
  induction l generalizing t with
  | nil => cases h
  | cons hd rest ih =>
    simp only [List.foldl_cons]
    rcases List.mem_cons.mp h with rfl | h'
    · exact (known_safes_subset_propagateStep t st).trans
        (safes_subset_foldl_propagateStep rest _)
    · exact ih h' _

theorem safes_subset_propagate (s : AI) : s.safes ⊆ s.propagate.safes :=
  safes_subset_foldl_propagateStep s.knowledge s

theorem known_safes_subset_propagate {s : AI} {st : Statement}
    (h : st ∈ s.knowledge) : st.known_safes ⊆ s.propagate.safes :=
  known_safes_subset_foldl_propagateStep h s

theorem infer_safes (s : AI) : s.infer.safes = s.safes := rfl

/-- Membership in the `pickable_cells` enumeration: exactly the board cells
that are neither already chosen nor known mines. -/
theorem mem_pickable_cells {s : AI} {c : Cell} :
    c ∈ s.pickable_cells ↔
      0 ≤ c.1 ∧ c.1 < (s.height : ℤ) ∧ 0 ≤ c.2 ∧ c.2 < (s.width : ℤ) ∧
        c ∉ s.moves ∧ c ∉ s.mines := by
  constructor
  · intro hmem
    obtain ⟨i, hi, hin⟩ := List.mem_flatMap.mp hmem
    obtain ⟨j, hj, hf⟩ := List.mem_filterMap.mp hin
    rw [List.mem_range] at hi hj
    by_cases hcond :
        (((i : ℤ), (j : ℤ)) : Cell) ∉ s.moves ∧ (((i : ℤ), (j : ℤ)) : Cell) ∉ s.mines
    · rw [if_pos hcond] at hf
      obtain rfl : (((i : ℤ), (j : ℤ)) : Cell) = c := Option.some.inj hf
      refine ⟨by positivity, ?_, by positivity, ?_, hcond.1, hcond.2⟩
      · show ((i : ℤ)) < ((s.height : ℤ))
        exact_mod_cast hi
      · show ((j : ℤ)) < ((s.width : ℤ))
        exact_mod_cast hj
    · rw [if_neg hcond] at hf
      cases hf
  · rintro ⟨h1, h2, h3, h4, h5, h6⟩
    have e1 : ((c.1.toNat : ℤ)) = c.1 := Int.toNat_of_nonneg h1
    have e2 : ((c.2.toNat : ℤ)) = c.2 := Int.toNat_of_nonneg h3
    have hpair : (((c.1.toNat : ℤ), (c.2.toNat : ℤ)) : Cell) = c := by
      rw [e1, e2]
    have hh : c.1.toNat < s.height := by omega
    have hw : c.2.toNat < s.width := by omega
    refine List.mem_flatMap.mpr ⟨c.1.toNat, List.mem_range.mpr hh, ?_⟩
    refine List.mem_filterMap.mpr ⟨c.2.toNat, List.mem_range.mpr hw, ?_⟩
    show (if _ ∧ _ then some _ else none) = some c
    rw [if_pos (by rw [hpair]; exact ⟨h5, h6⟩)]
    rw [hpair]

end AI

namespace AI

/-- A zero-count observation whose neighbours contain no already-known mine
leaves every supplied neighbour in `safes` when `add_knowledge` returns:
the already-safe neighbours stay safe, and the rest form the new zero-count
statement, whose `known_safes` the propagation pass marks safe. -/
theorem zero_observation_safes (s : AI) (cell : Cell) (nbrs : Finset Cell)
    (hd : nbrs ∩ s.mines = ∅) :
    nbrs ⊆ (s.add_knowledge cell 0 nbrs).safes := by
  intro n hn
  unfold add_knowledge
  rw [infer_safes]
  by_cases hns : n ∈ insert cell s.safes
  · refine safes_subset_propagate (s.ingest cell 0 nbrs) ?_
    rw [ingest_eq]
    exact hns
  · have hnm : n ∉ s.mines := by
      intro hmem
      have : n ∈ nbrs ∩ s.mines := Finset.mem_inter.mpr ⟨hn, hmem⟩
      rw [hd] at this
      cases Finset.not_mem_empty n this
    have hcount2 : (0:ℤ) - ((nbrs.filter (· ∈ s.mines)).card : ℤ) = 0 := by
      rw [Finset.filter_mem_eq_inter, hd]
      simp
    set newSt : Statement :=
      ⟨nbrs.filter (fun x => ¬(x ∈ insert cell s.safes ∨ x ∈ s.mines)),
       0 - ((nbrs.filter (· ∈ s.mines)).card : ℤ)⟩ with hnewSt
    have hncells : n ∈ newSt.cells := by
      rw [hnewSt]
      exact Finset.mem_filter.mpr ⟨hn, by push_neg; exact ⟨hns, hnm⟩⟩
    have hkmem : newSt ∈ (s.ingest cell 0 nbrs).knowledge := by
      rw [ingest_eq]
      refine List.mem_filter.mpr ⟨List.mem_append_right _ (List.mem_singleton_self _), ?_⟩
      exact decide_eq_true (Finset.ne_empty_of_mem hncells)
    have hsafes : newSt.known_safes = newSt.cells := by
      unfold Statement.known_safes
      rw [if_pos]
      rw [hnewSt]
      exact hcount2
    have := known_safes_subset_propagate hkmem
    rw [hsafes] at this
    exact this hncells

end AI

theorem Statement.mark_safe_idem (st : Statement) (c : Cell) :
    (st.mark_safe c).mark_safe c = st.mark_safe c := by
  by_cases h : c ∈ st.cells
  · simp [Statement.mark_safe, h, Finset.not_mem_erase]
  · simp [Statement.mark_safe, h]

/-- C1: every constraint in the knowledge base of a consistently driven
knowledge base (fed only marks and observations compatible with one mine
assignment `M`, from a fresh construction, across any sequence of
`add_knowledge` / `mark_mine` / `mark_safe` / `reset` calls) satisfies
`0 ≤ count ≤ |cells|` at every externally observable state. -/
theorem constraint_bounds_reachable (M : Finset Cell) (s : AI)
    (h : s.Reachable M) (st : Statement) (hst : st ∈ s.knowledge) :
    0 ≤ st.count ∧ st.count ≤ (st.cells.card : ℤ) :=
  (h.inv.2.2 st hst).bounds

theorem constraint_bounds_reachable_witness :
    0 ≤ (⟨(∅ : Finset Cell), 0⟩ : Statement).count ∧
      (⟨(∅ : Finset Cell), 0⟩ : Statement).count ≤
        (((⟨(∅ : Finset Cell), 0⟩ : Statement).cells.card : ℕ) : ℤ) :=
  constraint_bounds_reachable {((0:ℤ),(0:ℤ))}
    ((AI.init 2 2).add_knowledge ((1:ℤ),(1:ℤ)) 1 {((0:ℤ),(0:ℤ))})
    (AI.Reachable.observe ((1:ℤ),(1:ℤ)) 1 {((0:ℤ),(0:ℤ))} (by decide) (by decide)
      (AI.Reachable.init 2 2))
    ⟨(∅ : Finset Cell), 0⟩ (by decide)

/-- C2: with the knowledge base holding exactly the constraints
`{(0,0),(0,1),(0,2)} = 1` and `{(0,0),(0,1)} = 1`, one subset-inference pass
(as performed inside `add_knowledge`) adds the constraint `{(0,2)} = 0`, and
a subsequent propagation pass places `(0,2)` into the safe set. -/
theorem subset_inference_concrete :
    (⟨{((0:ℤ),(2:ℤ))}, 0⟩ : Statement) ∈ subsetTestKB.infer.knowledge ∧
      ((0:ℤ),(2:ℤ)) ∈ subsetTestKB.infer.propagate.safes := by decide

/-- C3: when none of the eight neighbours of `(1,1)` is already a known
mine, observing a zero clue at `(1,1)` with those eight neighbours leaves
all eight in the safe set. -/
theorem zero_clue_propagation (s : AI)
    (h : eightNeighbours ∩ s.mines = ∅) :
    eightNeighbours ⊆ (s.add_knowledge ((1:ℤ),(1:ℤ)) 0 eightNeighbours).safes :=
  AI.zero_observation_safes s ((1:ℤ),(1:ℤ)) eightNeighbours h

theorem zero_clue_propagation_witness :
    eightNeighbours ⊆
      ((AI.init 3 3).add_knowledge ((1:ℤ),(1:ℤ)) 0 eightNeighbours).safes :=
  zero_clue_propagation (AI.init 3 3) (by decide)

/-- C4 counterexample: `add_knowledge` can return with an empty-cell-set
constraint still in the knowledge base — observing a zero clue at `(1,1)`
with the single neighbour `(0,0)` on a fresh 3×3 knowledge base leaves the
statement `∅ = 0` in the collection (its cells were erased by the same
call's propagation pass, after the only filtering point had passed). -/
theorem empty_statement_persists_cx :
    (⟨(∅ : Finset Cell), 0⟩ : Statement) ∈
      ((AI.init 3 3).add_knowledge ((1:ℤ),(1:ℤ)) 0 {((0:ℤ),(0:ℤ))}).knowledge := by
  decide

/-- C4 (amended): within `add_knowledge`, constraints with an empty cell set
are dropped at the single filtering point just after the new observation
statement is appended — no empty constraint remains at that point; empty
constraints produced later in the same call (by the propagation and
inference passes) persist until a later call's filter. -/
theorem ingest_drops_empty (s : AI) (cell : Cell) (count : ℤ)
    (nbrs : Finset Cell) :
    ∀ st ∈ (s.ingest cell count nbrs).knowledge, st.cells ≠ ∅ := by
  intro st hst
  rw [AI.ingest_eq] at hst
  have h := (List.mem_filter.mp hst).2
  simpa using h

theorem ingest_drops_empty_witness :
    (⟨{((0:ℤ),(0:ℤ))}, (0:ℤ)⟩ : Statement).cells ≠ ∅ :=
  ingest_drops_empty (AI.init 2 2) ((1:ℤ),(1:ℤ)) 0 {((0:ℤ),(0:ℤ))}
    ⟨{((0:ℤ),(0:ℤ))}, 0⟩ (by decide)

/-- C5 counterexample: a constraint satisfying `0 ≤ count ≤ |cells|` can be
left with a negative count by `mark_mine` — on `{(0,0)} = 0` (a valid
constraint), `mark_mine((0,0))` yields count `-1`. -/
theorem resolveMine_negative_cx :
    0 ≤ (⟨{((0:ℤ),(0:ℤ))}, 0⟩ : Statement).count ∧
      (⟨{((0:ℤ),(0:ℤ))}, 0⟩ : Statement).count ≤
        (((⟨{((0:ℤ),(0:ℤ))}, 0⟩ : Statement).cells.card : ℕ) : ℤ) ∧
      ((⟨{((0:ℤ),(0:ℤ))}, 0⟩ : Statement).mark_mine ((0:ℤ),(0:ℤ))).count < 0 := by
  decide

/-- C5 (amended): on a constraint with `0 ≤ count ≤ |cells|`, `mark_mine`
removes the cell and decrements the count when the cell is a member — the
result is nonnegative provided additionally `1 ≤ count` (with `count = 0`
and the cell a member, the count becomes negative) — and is a no-op, with
the count still nonnegative, when the cell is absent. -/
theorem mark_mine_behaviour (st : Statement) (cell : Cell)
    (h0 : 0 ≤ st.count) (_h1 : st.count ≤ (st.cells.card : ℤ)) :
    (cell ∈ st.cells →
        (st.mark_mine cell).cells = st.cells.erase cell ∧
        (st.mark_mine cell).count = st.count - 1 ∧
        (1 ≤ st.count → 0 ≤ (st.mark_mine cell).count)) ∧
    (cell ∉ st.cells →
        st.mark_mine cell = st ∧ 0 ≤ (st.mark_mine cell).count) := by
  constructor
  · intro hmem
    unfold Statement.mark_mine
    rw [if_pos hmem]
    exact ⟨rfl, rfl, fun hone => by simpa using hone⟩
  · intro hmem
    unfold Statement.mark_mine
    rw [if_neg hmem]
    exact ⟨rfl, h0⟩

theorem mark_mine_behaviour_witness :
    (((0:ℤ),(0:ℤ)) ∈ (⟨{((0:ℤ),(0:ℤ))}, 1⟩ : Statement).cells →
        ((⟨{((0:ℤ),(0:ℤ))}, 1⟩ : Statement).mark_mine ((0:ℤ),(0:ℤ))).cells =
          (⟨{((0:ℤ),(0:ℤ))}, 1⟩ : Statement).cells.erase ((0:ℤ),(0:ℤ)) ∧
        ((⟨{((0:ℤ),(0:ℤ))}, 1⟩ : Statement).mark_mine ((0:ℤ),(0:ℤ))).count =
          (⟨{((0:ℤ),(0:ℤ))}, 1⟩ : Statement).count - 1 ∧
        (1 ≤ (⟨{((0:ℤ),(0:ℤ))}, 1⟩ : Statement).count →
          0 ≤ ((⟨{((0:ℤ),(0:ℤ))}, 1⟩ : Statement).mark_mine ((0:ℤ),(0:ℤ))).count)) ∧
    (((0:ℤ),(0:ℤ)) ∉ (⟨{((0:ℤ),(0:ℤ))}, 1⟩ : Statement).cells →
        (⟨{((0:ℤ),(0:ℤ))}, 1⟩ : Statement).mark_mine ((0:ℤ),(0:ℤ)) =
          (⟨{((0:ℤ),(0:ℤ))}, 1⟩ : Statement) ∧
        0 ≤ ((⟨{((0:ℤ),(0:ℤ))}, 1⟩ : Statement).mark_mine ((0:ℤ),(0:ℤ))).count) :=
  mark_mine_behaviour ⟨{((0:ℤ),(0:ℤ))}, 1⟩ ((0:ℤ),(0:ℤ)) (by decide) (by decide)

/-- C6 counterexample: `add_knowledge` mutates the caller's `neighbours`
set in place — with `(0,0)` already safe, the supplied set
`{(0,0),(0,1)}` does not keep the same elements across the call. -/
theorem neighbours_mutated_cx :
    ((AI.init 2 2).mark_safe ((0:ℤ),(0:ℤ))).filteredNeighbours ((1:ℤ),(1:ℤ))
        {((0:ℤ),(0:ℤ)), ((0:ℤ),(1:ℤ))} ≠
      {((0:ℤ),(0:ℤ)), ((0:ℤ),(1:ℤ))} := by decide

/-- C6 (amended): `add_knowledge` filters already-resolved neighbours out of
the caller's `neighbours` set itself (not a local copy): after the call the
set holds exactly the supplied neighbours that are neither in the updated
safe set (which includes the observed cell) nor in `mines`; in particular
the set is unchanged precisely when no supplied neighbour was already
resolved. -/
theorem filteredNeighbours_spec (s : AI) (cell : Cell) (nbrs : Finset Cell) :
    s.filteredNeighbours cell nbrs = nbrs \ (insert cell s.safes ∪ s.mines) ∧
      (s.filteredNeighbours cell nbrs = nbrs ↔
        ∀ n ∈ nbrs, n ∉ insert cell s.safes ∧ n ∉ s.mines) := by
  constructor
  · ext x
    simp only [AI.filteredNeighbours, Finset.mem_filter, Finset.mem_sdiff,
      Finset.mem_union, not_or]
  · unfold AI.filteredNeighbours
    rw [Finset.filter_eq_self]
    constructor
    · intro h n hn
      have := h n hn
      tauto
    · intro h n hn
      have := h n hn
      tauto

/-- C7 counterexample: with unrestricted direct calls the safe and mine sets
are not disjoint — marking `(0,0)` a mine and then safe from a fresh
knowledge base puts it in both sets. -/
theorem safe_mine_overlap_cx :
    (((AI.init 2 2).mark_mine ((0:ℤ),(0:ℤ))).mark_safe ((0:ℤ),(0:ℤ))).safes ∩
        (((AI.init 2 2).mark_mine ((0:ℤ),(0:ℤ))).mark_safe ((0:ℤ),(0:ℤ))).mines ≠
      ∅ := by decide

/-- C7 (amended): the safe and mine sets are disjoint after every completed
operation in every call sequence from a fresh knowledge base that is
consistent with a single mine assignment — in particular callers must not
mark the same cell both ways, as the spec itself requires. -/
theorem safes_mines_disjoint_reachable (M : Finset Cell) (s : AI)
    (h : s.Reachable M) : s.safes ∩ s.mines = ∅ := by
  obtain ⟨hm, hs, _⟩ := h.inv
  rw [Finset.eq_empty_iff_forall_not_mem]
  intro x hx
  obtain ⟨hxs, hxm⟩ := Finset.mem_inter.mp hx
  exact Finset.disjoint_left.mp hs hxs (hm hxm)

theorem safes_mines_disjoint_reachable_witness :
    (((AI.init 2 2).mark_mine ((0:ℤ),(0:ℤ))).mark_safe ((1:ℤ),(1:ℤ))).safes ∩
        (((AI.init 2 2).mark_mine ((0:ℤ),(0:ℤ))).mark_safe ((1:ℤ),(1:ℤ))).mines =
      ∅ :=
  safes_mines_disjoint_reachable {((0:ℤ),(0:ℤ))} _
    (AI.Reachable.mark_safe ((1:ℤ),(1:ℤ)) (by decide)
      (AI.Reachable.mark_mine ((0:ℤ),(0:ℤ)) (by decide) (AI.Reachable.init 2 2)))

/-- C8: for every knowledge-base state and every outcome of the shuffle,
`make_random_move` never returns a cell in `mines` or `moves`; any returned
cell lies on the `height` × `width` board outside `moves ∪ mines`, and the
no-move result is returned exactly when no such board cell exists. -/
theorem make_random_move_spec (s : AI) (l : List Cell)
    (h : l.Perm s.pickable_cells) :
    (∀ c : Cell, (s.make_random_move l).1 = some c →
        c ∉ s.mines ∧ c ∉ s.moves ∧
          0 ≤ c.1 ∧ c.1 < (s.height : ℤ) ∧ 0 ≤ c.2 ∧ c.2 < (s.width : ℤ)) ∧
      ((s.make_random_move l).1 = none ↔
        ∀ c : Cell, 0 ≤ c.1 → c.1 < (s.height : ℤ) → 0 ≤ c.2 →
          c.2 < (s.width : ℤ) → c ∈ s.moves ∨ c ∈ s.mines) := by
  constructor
  · intro c hc
    have hmem : c ∈ l := by
      cases l with
      | nil => cases hc
      | cons a t =>
        obtain rfl : a = c := Option.some.inj hc
        exact List.mem_cons_self a t
    have hp : c ∈ s.pickable_cells := h.mem_iff.mp hmem
    obtain ⟨h1, h2, h3, h4, h5, h6⟩ := AI.mem_pickable_cells.mp hp
    exact ⟨h6, h5, h1, h2, h3, h4⟩
  · show l.head? = none ↔ _
    rw [List.head?_eq_none_iff]
    constructor
    · intro hnil c hc1 hc2 hc3 hc4
      subst hnil
      have : c ∉ s.pickable_cells := fun hmem => by
        cases (h.symm.mem_iff.mp hmem)
      by_contra hcon
      push_neg at hcon
      exact this (AI.mem_pickable_cells.mpr ⟨hc1, hc2, hc3, hc4, hcon.1, hcon.2⟩)
    · intro hall
      rw [List.eq_nil_iff_forall_not_mem]
      intro c hmem
      obtain ⟨h1, h2, h3, h4, h5, h6⟩ :=
        AI.mem_pickable_cells.mp (h.mem_iff.mp hmem)
      rcases hall c h1 h2 h3 h4 with hcm | hcm
      · exact h5 hcm
      · exact h6 hcm

theorem make_random_move_spec_witness :
    (∀ c : Cell,
        ((AI.init 1 1).make_random_move [((0:ℤ),(0:ℤ))]).1 = some c →
          c ∉ (AI.init 1 1).mines ∧ c ∉ (AI.init 1 1).moves ∧
            0 ≤ c.1 ∧ c.1 < ((AI.init 1 1).height : ℤ) ∧
            0 ≤ c.2 ∧ c.2 < ((AI.init 1 1).width : ℤ)) ∧
      (((AI.init 1 1).make_random_move [((0:ℤ),(0:ℤ))]).1 = none ↔
        ∀ c : Cell, 0 ≤ c.1 → c.1 < ((AI.init 1 1).height : ℤ) → 0 ≤ c.2 →
          c.2 < ((AI.init 1 1).width : ℤ) →
            c ∈ (AI.init 1 1).moves ∨ c ∈ (AI.init 1 1).mines) :=
  make_random_move_spec (AI.init 1 1) [((0:ℤ),(0:ℤ))] (by decide)

/-- C9: `mark_safe` is idempotent — calling it twice with the same cell
yields exactly the same knowledge-base state (in particular the same safe
set and the same constraint list, element for element and in order) as
calling it once. -/
theorem mark_safe_idempotent (s : AI) (c : Cell) :
    (s.mark_safe c).mark_safe c = s.mark_safe c := by
  cases s with
  | mk height width knowledge moves mines safes =>
    unfold AI.mark_safe
    simp only [AI.mk.injEq, true_and, Finset.insert_idem, List.map_map, and_true]
    refine List.map_congr_left ?_
    intro st _
    exact Statement.mark_safe_idem st c

/-- C10: the move-selection queries are pure — `make_safe_move` and
`make_random_move` leave every field of the knowledge base (the constraint
list, the `moves`, `safes` and `mines` sets, and the stored dimensions)
unchanged; the source methods only build and mutate local collections. -/
theorem move_queries_pure (s : AI) (pick : Finset Cell → Option Cell)
    (l : List Cell) :
    (s.make_safe_move pick).2 = s ∧ (s.make_random_move l).2 = s :=
  ⟨rfl, rfl⟩
